import Mathlib

/-!
Shallow embedding of `mvn-testalot.py` (the test-result parser, collector and
report generators) and verification of the specification's claims about it.

Modelling conventions:
* A document is a `List String` of its text lines (as produced by iterating the
  open file in the source).
* Durations are exact rationals (seconds).  The source stores
  `datetime.timedelta(seconds=float(text))`; the rounding of a decimal literal
  to binary floating point and then to whole microseconds is weakly monotone,
  so maxima and comparisons are preserved; none of the claims depend on
  sub-microsecond rounding, so we keep the exact decimal value.
* Python's insertion-ordered `dict` is an association list whose `set`
  operation updates in place or appends at the end.
* Raising `AssertionError` / `ValueError` is modelled with `Except`.
-/

namespace MvnTestalot

/-- Embedding of the `ResultKind` enumeration of the source. -/
inductive ResultKind where
  | PASS
  | FAIL
  | ERROR
deriving DecidableEq, Repr

/-- Embedding of the `Result` named tuple: `name`, `kind`, `duration`.
The source's `duration` is a `datetime.timedelta`; we keep the exact value in
seconds as a rational. -/
structure Result where
  name : String
  kind : ResultKind
  duration : ℚ
deriving DecidableEq, Repr

/-- Equality of `Except` values is decidable when it is for both components;
used to evaluate the embedding at concrete inputs. -/
instance {e a : Type} [DecidableEq e] [DecidableEq a] : DecidableEq (Except e a) := fun x y =>
  match x, y with
  | .ok v, .ok w =>
    if h : v = w then isTrue (by rw [h]) else isFalse (fun hc => h (Except.ok.inj hc))
  | .error v, .error w =>
    if h : v = w then isTrue (by rw [h]) else isFalse (fun hc => h (Except.error.inj hc))
  | .ok _, .error _ => isFalse (fun hc => Except.noConfusion hc)
  | .error _, .ok _ => isFalse (fun hc => Except.noConfusion hc)

/-- The exceptions `parse_xml` can raise: a failed `assert`, or the
`ValueError` raised by `float(text)` on a malformed duration (carrying the
offending text). -/
inductive ParseError where
  | assertionError
  | valueError (text : String)
deriving DecidableEq, Repr

/-! ### Duration text: embedding of Python `float(text)`

`float` accepts an optional sign, a decimal mantissa (digits, optionally with a
decimal point) and an optional exponent part, and raises `ValueError`
otherwise.  We model exactly this decimal grammar; the exotic accepted forms
(`inf`, `nan`, embedded underscores, surrounding whitespace) never occur as
test durations and are not modelled. -/

/-- Numeric value of a decimal digit character. -/
def digitVal (c : Char) : ℕ := c.toNat - 48

/-- Value of a list of decimal digit characters, most significant first. -/
def digitsToNat (ds : List Char) : ℕ := ds.foldl (fun a c => a * 10 + digitVal c) 0

/-- Split a leading run of decimal digits from the rest. -/
def takeDigits (cs : List Char) : List Char × List Char :=
  (cs.takeWhile Char.isDigit, cs.dropWhile Char.isDigit)

/-- Consume an optional leading sign; returns whether it was `-`. -/
def parseSign : List Char → Bool × List Char
  | '+' :: r => (false, r)
  | '-' :: r => (true, r)
  | r => (false, r)

/-- Parse the mantissa of a float literal: digits, optionally a decimal point
with further digits; at least one digit overall.  Returns the mantissa as a
scaled integer: the digit string's value and the number of fraction digits
(so the mantissa's value is the first divided by ten to the second). -/
def parseMantissa (cs : List Char) : Option (ℕ × ℕ × List Char) :=
  let (ip, r1) := takeDigits cs
  match r1 with
  | '.' :: r =>
      let (fp, r2) := takeDigits r
      if ip.isEmpty && fp.isEmpty then none
      else some (digitsToNat (ip ++ fp), fp.length, r2)
  | _ => if ip.isEmpty then none else some (digitsToNat ip, 0, r1)

/-- Parse the exponent part of a float literal; the empty rest means exponent
zero, anything that is not a complete `e`/`E` exponent is a parse failure. -/
def parseExpPart : List Char → Option ℤ
  | [] => some 0
  | c :: r =>
    if c = 'e' ∨ c = 'E' then
      let (neg, r1) := parseSign r
      let (ds, r2) := takeDigits r1
      if ds.isEmpty ∨ ¬ r2.isEmpty then none
      else some (if neg then -(digitsToNat ds : ℤ) else (digitsToNat ds : ℤ))
    else none

/-- The exact rational `num * 10 ^ e`. -/
def ratOfScaled (num : ℤ) (e : ℤ) : ℚ :=
  match e with
  | Int.ofNat k => Rat.divInt (num * (10 : ℤ) ^ k) 1
  | Int.negSucc k => Rat.divInt num ((10 : ℤ) ^ (k + 1))

/-- Embedding of `float(text)` on the decimal-literal grammar: `some` value on
success, `none` where Python raises `ValueError`.  The exact decimal value is
assembled from the scaled mantissa and the exponent. -/
def parseFloat (s : String) : Option ℚ := do
  let (neg, r0) := parseSign s.data
  let (mnum, dpow, r1) ← parseMantissa r0
  let e ← parseExpPart r1
  let sgn : ℤ := if neg then -(mnum : ℤ) else (mnum : ℤ)
  pure (ratOfScaled sgn (e - (dpow : ℤ)))

/-! ### Line classification: the module-level compiled regexes

`TESTCASE = re.compile(r'  <testcase name="([^"]+)" classname="([^"]+)" time="([^"]+)"')`
`ERROR    = re.compile(r"    <error ")`
`FAILURE  = re.compile(r"    <failure ")`
all used with `.match`, i.e. anchored at the start of the line. -/

/-- Consume an exact literal character sequence from the front; `none` when the
input does not start with it (the anchored-literal part of a regex match). -/
def stripLit : List Char → List Char → Option (List Char)
  | [], cs => some cs
  | _ :: _, [] => none
  | l :: ls, c :: cs => if c = l then stripLit ls cs else none

/-- Match `([^"]+)"`: a nonempty capture of non-quote characters followed by a
closing double quote; returns the capture and the rest.  Greedy matching is
deterministic here because the capture cannot contain the quote. -/
def grabQuoted (cs : List Char) : Option (List Char × List Char) :=
  let g := cs.takeWhile (fun c => c ≠ '\"')
  if g.isEmpty then none
  else
    match cs.dropWhile (fun c => c ≠ '\"') with
    | '\"' :: rest => some (g, rest)
    | _ => none

/-- Embedding of `TESTCASE.match(line)`: the three captures
(test name, class name, duration text) when the line matches. -/
def matchTestcase (line : String) : Option (String × String × String) := do
  let r0 ← stripLit ("  <testcase name=\"").data line.data
  let (g1, r1) ← grabQuoted r0
  let r2 ← stripLit (" classname=\"").data r1
  let (g2, r3) ← grabQuoted r2
  let r4 ← stripLit (" time=\"").data r3
  let (g3, _) ← grabQuoted r4
  pure (g1.asString, g2.asString, g3.asString)

/-- Embedding of `ERROR.match(line)`: the line starts with `    <error `. -/
def matchError (line : String) : Bool :=
  (stripLit ("    <error ").data line.data).isSome

/-- Embedding of `FAILURE.match(line)`: the line starts with `    <failure `. -/
def matchFailure (line : String) : Bool :=
  (stripLit ("    <failure ").data line.data).isSome

/-! ### The parser state machine (`parse_xml`) -/

/-- The local state of `parse_xml`'s loop: accumulated results and the
`current_test` / `result_kind` / `duration` variables (all `None` initially). -/
structure PState where
  results : List Result
  current_test : Option String
  result_kind : Option ResultKind
  duration : Option ℚ
deriving DecidableEq, Repr

/-- Initial loop state of `parse_xml`. -/
def pstateInit : PState := ⟨[], none, none, none⟩

/-- The close-and-emit step performed when a new testcase line is seen with a
test open, and again at end of input:
`assert result_kind`, `assert duration is not None`, append the `Result`. -/
def closeCurrent (s : PState) : Except ParseError PState :=
  match s.current_test with
  | none => .ok s
  | some t =>
    match s.result_kind, s.duration with
    | some k, some d => .ok { s with results := s.results ++ [⟨t, k, d⟩] }
    | _, _ => .error .assertionError

/-- One iteration of `parse_xml`'s line loop. -/
def step (s : PState) (line : String) : Except ParseError PState :=
  match matchTestcase line with
  | some (testname, classname, timeText) =>
    match closeCurrent s with
    | .error e => .error e
    | .ok s1 =>
      match parseFloat timeText with
      | none => .error (.valueError timeText)
      | some d =>
        .ok { results := s1.results,
              current_test := some (classname ++ "." ++ testname ++ "()"),
              result_kind := some .PASS,
              duration := some d }
  | none =>
    if matchError line then
      if s.result_kind = some .PASS then .ok { s with result_kind := some .ERROR }
      else .error .assertionError
    else if matchFailure line then
      if s.result_kind = some .PASS then .ok { s with result_kind := some .FAIL }
      else .error .assertionError
    else .ok s

/-- Run the line loop over a list of lines from a given state. -/
def runLines (s : PState) : List String → Except ParseError PState
  | [] => .ok s
  | l :: ls =>
    match step s l with
    | .ok s1 => runLines s1 ls
    | .error e => .error e

/-- Embedding of `parse_xml`: run the loop over the document's lines, then
close the still-open test (if any) and return the accumulated results. -/
def parse_xml (lines : List String) : Except ParseError (List Result) :=
  match runLines pstateInit lines with
  | .error e => .error e
  | .ok s =>
    match closeCurrent s with
    | .error e => .error e
    | .ok s1 => .ok s1.results

/-! ### The collector (`collect_results`)

The filesystem is modelled as an inductive tree; `collect_results` receives
each input path paired with the node it resolves to.  `os.walk` yields the
top directory's triple first (we iterate its regular files in directory-entry
order) and then recurses into each subdirectory in order; walking a regular
file yields nothing.  The propagated error is tagged with the path of the
document whose parse raised. -/

/-- A filesystem node: a regular file with its text lines, or a directory with
its named entries in (deterministic) listing order. -/
inductive FsNode where
  | file (content : List String)
  | dir (entries : List (String × FsNode))

/-- Embedding of `os.path.join` for our purposes. -/
def joinPath (p nm : String) : String := p ++ "/" ++ nm

/-- Embedding of `path.endswith(".xml")`: a suffix test on the characters. -/
def hasXmlExt (p : String) : Bool := List.isSuffixOf (".xml").data p.data

/-- The regular files directly inside a directory's entry list, with joined
paths, in entry order (the `filenames` of one `os.walk` triple). -/
def entryFiles (p : String) (es : List (String × FsNode)) : List (String × List String) :=
  es.filterMap (fun e =>
    match e with
    | (nm, FsNode.file c) => some (joinPath p nm, c)
    | _ => none)

mutual

/-- All descendant regular files of a node in `os.walk` (top-down) order:
the node's own files first, then each child subtree in entry order.  Walking
a regular file yields nothing. -/
def walkFiles (p : String) : FsNode → List (String × List String)
  | .file _ => []
  | .dir es => entryFiles p es ++ walkEntryList p es

/-- Walk each entry of a directory in order, concatenating results. -/
def walkEntryList (p : String) : List (String × FsNode) → List (String × List String)
  | [] => []
  | (nm, n) :: rest => walkFiles (joinPath p nm) n ++ walkEntryList p rest

end

/-- Parse one document, tagging a parse failure with the document's path
(the context the raised exception carries out of `parse_xml`). -/
def parseDoc (p : String) (c : List String) : Except (String × ParseError) (List Result) :=
  match parse_xml c with
  | .ok rs => .ok rs
  | .error e => .error (p, e)

/-- The inner `os.walk` loop of `collect_results`: parse every walked file
whose path ends in `.xml`, skipping the rest, concatenating outputs. -/
def parseWalked : List (String × List String) → Except (String × ParseError) (List Result)
  | [] => .ok []
  | (p, c) :: rest =>
    if hasXmlExt p then
      match parseDoc p c with
      | .error e => .error e
      | .ok rs =>
        match parseWalked rest with
        | .error e => .error e
        | .ok rest1 => .ok (rs ++ rest1)
    else parseWalked rest

/-- The results contributed by one input path of `collect_results`: a path
that is a regular file ending in `.xml` is parsed directly; any other path
falls through to the `os.walk` loop (which yields nothing for a regular
file). -/
def collectHead (p : String) (n : FsNode) : Except (String × ParseError) (List Result) :=
  match n with
  | FsNode.file c =>
    if hasXmlExt p then parseDoc p c else parseWalked (walkFiles p (FsNode.file c))
  | FsNode.dir es => parseWalked (walkFiles p (FsNode.dir es))

/-- Embedding of `collect_results`: concatenate each input path's
contribution, propagating the first raised parse error. -/
def collect_results : List (String × FsNode) → Except (String × ParseError) (List Result)
  | [] => .ok []
  | (p, n) :: rest =>
    match collectHead p n with
    | .error e => .error e
    | .ok rs =>
      match collect_results rest with
      | .error e => .error e
      | .ok rest1 => .ok (rs ++ rest1)

/-! ### Python `dict`: insertion-ordered association list -/

/-- Embedding of `d.get(k, dflt)` for an insertion-ordered dict. -/
def dictGet {κ α : Type} [DecidableEq κ] : List (κ × α) → κ → α → α
  | [], _, dflt => dflt
  | (k1, v) :: rest, k, dflt => if k1 = k then v else dictGet rest k dflt

/-- Embedding of `d[k] = v` for an insertion-ordered dict: update in place if the key is
present, else append at the end. -/
def dictSet {κ α : Type} [DecidableEq κ] : List (κ × α) → κ → α → List (κ × α)
  | [], k, v => [(k, v)]
  | (k1, v1) :: rest, k, v =>
    if k1 = k then (k, v) :: rest else (k1, v1) :: dictSet rest k v

/-! ### Report generators

The print functions are embedded as the lists of table rows they print. -/

/-- One iteration of `print_slow_tests_report`'s aggregation loop:
`duration = durations.get(name, timedelta()); if result.duration > duration:
duration = result.duration; durations[name] = duration`. -/
def updateDuration (d : List (String × ℚ)) (r : Result) : List (String × ℚ) :=
  let cur := dictGet d r.name 0
  let v := if cur < r.duration then r.duration else cur
  dictSet d r.name v

/-- The `durations` dict of `print_slow_tests_report` after the aggregation
loop. -/
def durationsDict (results : List Result) : List (String × ℚ) :=
  results.foldl updateDuration []

/-- Embedding of `sorted(durations.items(), key=lambda x: x[1], reverse=True)`: a stable
sort, descending by duration. -/
def slowRanking (results : List Result) : List (String × ℚ) :=
  (durationsDict results).mergeSort (fun a b => decide (b.2 ≤ a.2))

/-- The rows `(duration, name)` printed by `print_slow_tests_report`: the
print loop breaks after 8 rows. -/
def slow_tests_rows (results : List Result) : List (ℚ × String) :=
  ((slowRanking results).take 8).map (fun x => (x.2, x.1))

/-- One iteration of `print_flaky_tests_report`'s counting loop. -/
def updateCounts (d : List (String × List (ResultKind × ℕ))) (r : Result) :
    List (String × List (ResultKind × ℕ)) :=
  let cfr := dictGet d r.name []
  let c := dictGet cfr r.kind 0
  dictSet d r.name (dictSet cfr r.kind (c + 1))

/-- The `counts` dict of `print_flaky_tests_report`: name → (kind → count),
both levels insertion-ordered. -/
def countsDict (results : List Result) : List (String × List (ResultKind × ℕ)) :=
  results.foldl updateCounts []

/-- The loop body of `print_flaky_tests_report` for one name: skip it when
its stats dict has exactly one kind, otherwise emit the row
`(pass-count, fail-count, error-count, name)`. -/
def flakyRow (counts : List (String × List (ResultKind × ℕ))) (name : String) :
    Option (ℕ × ℕ × ℕ × String) :=
  let stats := dictGet counts name []
  if stats.length = 1 then none
  else some (dictGet stats ResultKind.PASS 0, dictGet stats ResultKind.FAIL 0,
             dictGet stats ResultKind.ERROR 0, name)

/-- The rows printed by `print_flaky_tests_report`: iterate the names in
sorted order, emitting each name's row. -/
def flaky_tests_rows (results : List Result) : List (ℕ × ℕ × ℕ × String) :=
  let counts := countsDict results
  ((counts.map Prod.fst).mergeSort (fun a b => decide (a ≤ b))).filterMap (flakyRow counts)

/-! ### Specification-side definitions

These follow the spec's words and are compared with the code-derived
functions in the claim theorems. -/

/-- Spec side: the maximum duration observed across all parsed records sharing
a name (0 when the name does not occur). -/
def specMaxDuration (results : List Result) (name : String) : ℚ :=
  match (results.filter (fun r => decide (r.name = name))).map Result.duration with
  | [] => 0
  | d :: ds => ds.foldl max d

/-- The running maximum the slow-report aggregation loop maintains for one
name, started from a given value. -/
def maxFoldFrom (nm : String) (a : ℚ) (rs : List Result) : ℚ :=
  rs.foldl (fun acc r =>
    if r.name = nm then (if acc < r.duration then r.duration else acc) else acc) a

/-- Spec side: the number of records with a given name and kind. -/
def countNameKind (results : List Result) (name : String) (k : ResultKind) : ℕ :=
  (results.filter (fun r => decide (r.name = name) && decide (r.kind = k))).length

/-- Spec side: a name is flaky when its outcome was not identical across every
record in which it appeared. -/
def isFlaky (results : List Result) (name : String) : Prop :=
  ∃ r1 ∈ results, ∃ r2 ∈ results, r1.name = name ∧ r2.name = name ∧ r1.kind ≠ r2.kind

/-- Spec side: the documents the collector should find, in order — a file path
with the `.xml` extension is itself a document; a directory path contributes
its descendant files with the `.xml` extension. -/
def foundDocs : List (String × FsNode) → List (String × List String)
  | [] => []
  | (p, n) :: rest =>
    (match n with
     | FsNode.file c => if hasXmlExt p then [(p, c)] else []
     | FsNode.dir _ => (walkFiles p n).filter (fun q => hasXmlExt q.1)) ++ foundDocs rest

/-- Spec side: parse each found document and concatenate the outputs, failing
as a whole when any document fails. -/
def specCollect : List (String × List String) → Except (String × ParseError) (List Result)
  | [] => .ok []
  | (p, c) :: rest =>
    match parseDoc p c with
    | .error e => .error e
    | .ok rs =>
      match specCollect rest with
      | .error e => .error e
      | .ok rest1 => .ok (rs ++ rest1)

/-! ### Document-shape vocabulary used by the claim statements -/

/-- The outcome-marker classification performed by the line loop: `Error` for
an error-marker line, `Fail` for a failure-marker line (checked in that
order, as in the source). -/
def markerKind (line : String) : Option ResultKind :=
  if matchError line then some ResultKind.ERROR
  else if matchFailure line then some ResultKind.FAIL
  else none

/-- A line the parser ignores: it matches none of the three patterns. -/
def lineOther (line : String) : Prop :=
  matchTestcase line = none ∧ matchError line = false ∧ matchFailure line = false

/-- All lines of a list are ignored lines. -/
def allOther (lines : List String) : Prop := ∀ l ∈ lines, lineOther l

/-- A capture-safe attribute value: nonempty and free of double quotes
(the `[^\x22]+` character class of the patterns). -/
def validStr (s : String) : Prop := s.data ≠ [] ∧ ∀ ch ∈ s.data, ch ≠ '\"'

/-- A test-start line of the duration-carrying variant, as it appears in a
surefire report. -/
def startLine (t c d : String) : String :=
  "  <testcase name=\"" ++ t ++ "\" classname=\"" ++ c ++ "\" time=\"" ++ d ++ "\"/>"

/-- A test-start line of the legacy variant that carries no duration. -/
def noTimeLine (t c : String) : String :=
  "  <testcase name=\"" ++ t ++ "\" classname=\"" ++ c ++ "\"/>"

/-- The record identity built by the parser:
`<class-or-suite-identifier>.<test-identifier>()`. -/
def testName (t c : String) : String := c ++ "." ++ t ++ "()"

/-- One markerless test entry of a document: its start-line fields followed by
lines the parser ignores. -/
structure Entry where
  t : String
  c : String
  time : String
  junk : List String

/-- The document lines of one markerless entry. -/
def entryLines (e : Entry) : List String := startLine e.t e.c e.time :: e.junk

/-- A well-formed markerless entry: capture-safe fields, a duration text the
float parser accepts, and ignored trailing lines. -/
def entryOk (e : Entry) : Prop :=
  validStr e.t ∧ validStr e.c ∧ validStr e.time ∧
    (parseFloat e.time).isSome = true ∧ allOther e.junk

/-- The duration of a well-formed entry. -/
def durOf (e : Entry) : ℚ := (parseFloat e.time).getD 0

/-- The records a run of markerless entries contributes: one `Pass` record
per entry. -/
def entryRecords (es : List Entry) : List Result :=
  es.map (fun e => ⟨testName e.t e.c, ResultKind.PASS, durOf e⟩)

/-- The loop state while a test is open with outcome still `Pass`. -/
def openState (acc : List Result) (nm : String) (q : ℚ) : PState :=
  ⟨acc, some nm, some ResultKind.PASS, some q⟩

/-- The loop state after running a list of markerless entries from an open
state: each entry closes its predecessor. -/
def openChain (acc : List Result) (nm : String) (q : ℚ) : List Entry → PState
  | [] => openState acc nm q
  | e :: rest =>
    openChain (acc ++ [⟨nm, ResultKind.PASS, q⟩]) (testName e.t e.c) (durOf e) rest

/-- The loop state after running a list of markerless entries from a state
with no open test. -/
def chainFrom (s : PState) : List Entry → PState
  | [] => s
  | e :: rest => openChain s.results (testName e.t e.c) (durOf e) rest

/-- The loop-state invariant: whenever a test is open, an outcome and a
duration have been recorded for it. -/
def PState.wf (s : PState) : Prop :=
  s.current_test ≠ none → (s.result_kind ≠ none ∧ s.duration ≠ none)

instance (s : String) : Decidable (validStr s) := by
  unfold validStr
  infer_instance

instance (l : String) : Decidable (lineOther l) := by
  unfold lineOther
  infer_instance

instance (ls : List String) : Decidable (allOther ls) := by
  unfold allOther
  infer_instance

instance (e : Entry) : Decidable (entryOk e) := by
  unfold entryOk
  infer_instance

instance (results : List Result) (name : String) : Decidable (isFlaky results name) := by
  unfold isFlaky
  infer_instance

/-! ## Lemmas -/

/-- Setting then reading the same key. -/
theorem dictGet_set_same {κ α : Type} [DecidableEq κ] (d : List (κ × α)) (k : κ) (v dflt : α) :
    dictGet (dictSet d k v) k dflt = v := by
  induction d with
  | nil => simp [dictSet, dictGet]
  | cons hd t ih =>
    obtain ⟨k1, v1⟩ := hd
    by_cases hk : k1 = k
    · simp [dictSet, hk, dictGet]
    · simp [dictSet, hk, dictGet, ih]

/-- Setting one key does not change another key's value. -/
theorem dictGet_set_ne {κ α : Type} [DecidableEq κ] (d : List (κ × α)) {k k1 : κ} (v dflt : α)
    (hk : k1 ≠ k) : dictGet (dictSet d k v) k1 dflt = dictGet d k1 dflt := by
  induction d with
  | nil => simp [dictSet, dictGet, Ne.symm hk]
  | cons hd t ih =>
    obtain ⟨k2, v2⟩ := hd
    by_cases h2 : k2 = k
    · subst h2
      simp [dictSet, dictGet, Ne.symm hk]
    · simp only [dictSet, if_neg h2, dictGet]
      rw [ih]

/-- The keys after a set: the old keys plus possibly the new key. -/
theorem mem_keys_dictSet {κ α : Type} [DecidableEq κ] (d : List (κ × α)) (k k1 : κ) (v : α) :
    k1 ∈ (dictSet d k v).map Prod.fst ↔ k1 ∈ d.map Prod.fst ∨ k1 = k := by
  induction d with
  | nil => simp [dictSet]
  | cons hd t ih =>
    obtain ⟨k2, v2⟩ := hd
    by_cases h2 : k2 = k
    · subst h2
      simp [dictSet]
      tauto
    · simp [dictSet, h2, ih]
      tauto

/-- Setting a key preserves distinctness of the keys. -/
theorem nodup_keys_dictSet {κ α : Type} [DecidableEq κ] (d : List (κ × α)) (k : κ) (v : α)
    (h : (d.map Prod.fst).Nodup) : ((dictSet d k v).map Prod.fst).Nodup := by
  induction d with
  | nil => simp [dictSet]
  | cons hd t ih =>
    obtain ⟨k2, v2⟩ := hd
    simp only [List.map_cons, List.nodup_cons] at h
    by_cases h2 : k2 = k
    · subst h2
      simpa [dictSet] using h
    · simp only [dictSet, h2, if_false, List.map_cons, List.nodup_cons]
      refine ⟨fun hmem => ?_, ih h.2⟩
      rcases (mem_keys_dictSet t k k2 v).mp hmem with h3 | h3
      · exact h.1 h3
      · exact h2 h3

/-- In a dict with distinct keys, a member pair is read back by `dictGet`. -/
theorem dictGet_of_mem {κ α : Type} [DecidableEq κ] {d : List (κ × α)} {k : κ} {v : α}
    (dflt : α) (hn : (d.map Prod.fst).Nodup) (hm : (k, v) ∈ d) : dictGet d k dflt = v := by
  induction d with
  | nil => simp at hm
  | cons hd t ih =>
    obtain ⟨k2, v2⟩ := hd
    simp only [List.map_cons, List.nodup_cons] at hn
    rcases List.mem_cons.mp hm with h | h
    · cases h
      simp [dictGet]
    · have hne : k2 ≠ k := by
        rintro rfl
        exact hn.1 (List.mem_map_of_mem Prod.fst h)
      simp [dictGet, hne, ih hn.2 h]

/-- Consuming a literal that is literally there. -/
theorem stripLit_append (l r : List Char) : stripLit l (l ++ r) = some r := by
  induction l with
  | nil => simp [stripLit]
  | cons c t ih => simp [stripLit, ih]

/-- A successful literal consumption decomposes the input. -/
theorem stripLit_eq_some {l cs r : List Char} (h : stripLit l cs = some r) : cs = l ++ r := by
  induction l generalizing cs with
  | nil =>
    simp only [stripLit, Option.some.injEq] at h
    simp [h]
  | cons c t ih =>
    cases cs with
    | nil => simp [stripLit] at h
    | cons c1 cs1 =>
      by_cases hc : c1 = c
      · subst hc
        simp only [stripLit, if_pos rfl] at h
        simp [ih h]
      · simp [stripLit, hc] at h

/-- The function `takeWhile` stops exactly at the first failing element. -/
theorem takeWhile_all_append {p : Char → Bool} {g : List Char} {b : Char}
    (hg : ∀ c ∈ g, p c = true) (hb : p b = false) (r : List Char) :
    (g ++ b :: r).takeWhile p = g := by
  induction g with
  | nil => simp [List.takeWhile, hb]
  | cons c t ih =>
    have hc : p c = true := hg c (List.mem_cons_self c t)
    simp only [List.cons_append, List.takeWhile_cons, hc, if_true]
    simp [ih (fun x hx => hg x (List.mem_cons_of_mem c hx))]

/-- The function `dropWhile` stops exactly at the first failing element. -/
theorem dropWhile_all_append {p : Char → Bool} {g : List Char} {b : Char}
    (hg : ∀ c ∈ g, p c = true) (hb : p b = false) (r : List Char) :
    (g ++ b :: r).dropWhile p = b :: r := by
  induction g with
  | nil => simp [List.dropWhile, hb]
  | cons c t ih =>
    have hc : p c = true := hg c (List.mem_cons_self c t)
    simp only [List.cons_append, List.dropWhile_cons, hc, if_true]
    exact ih (fun x hx => hg x (List.mem_cons_of_mem c hx))

/-- A quoted capture consumes exactly the quote-free run and its delimiter. -/
theorem grabQuoted_append {g : List Char} (r : List Char) (hne : g ≠ [])
    (hq : ∀ c ∈ g, c ≠ '\"') : grabQuoted (g ++ '\"' :: r) = some (g, r) := by
  have hg : ∀ c ∈ g, (decide (c ≠ '\"')) = true := fun c hc => by
    simpa using hq c hc
  have hb : (decide (('\"' : Char) ≠ '\"')) = false := by simp
  unfold grabQuoted
  rw [takeWhile_all_append hg hb, dropWhile_all_append hg hb]
  simp [hne]

/-- Rebuilding a string from its character list. -/
theorem asString_data (s : String) : s.data.asString = s := by
  cases s
  rfl

/-- The testcase pattern fails on any line starting with four spaces. -/
theorem stripLit_testcase_spaces (rest : List Char) :
    stripLit (("  <testcase name=\"").data) (' ' :: ' ' :: ' ' :: rest) = none := by
  show stripLit
    (' ' :: ' ' :: '<' :: 't' :: 'e' :: 's' :: 't' :: 'c' :: 'a' :: 's' :: 'e' :: ' ' ::
      'n' :: 'a' :: 'm' :: 'e' :: '=' :: '\"' :: []) (' ' :: ' ' :: ' ' :: rest) = none
  simp [stripLit]

/-- The error pattern fails on any line starting `  <`. -/
theorem stripLit_error_testcase (rest : List Char) :
    stripLit (("    <error ").data) (' ' :: ' ' :: '<' :: rest) = none := by
  show stripLit
    (' ' :: ' ' :: ' ' :: ' ' :: '<' :: 'e' :: 'r' :: 'r' :: 'o' :: 'r' :: ' ' :: [])
    (' ' :: ' ' :: '<' :: rest) = none
  simp [stripLit]

/-- The failure pattern fails on any line starting `  <`. -/
theorem stripLit_failure_testcase (rest : List Char) :
    stripLit (("    <failure ").data) (' ' :: ' ' :: '<' :: rest) = none := by
  show stripLit
    (' ' :: ' ' :: ' ' :: ' ' :: '<' :: 'f' :: 'a' :: 'i' :: 'l' :: 'u' :: 'r' :: 'e' ::
      ' ' :: []) (' ' :: ' ' :: '<' :: rest) = none
  simp [stripLit]

/-- A duration-carrying test-start line matches the testcase pattern with
exactly its three attribute values as captures. -/
theorem matchTestcase_startLine {t c d : String} (ht : validStr t) (hc : validStr c)
    (hd : validStr d) : matchTestcase (startLine t c d) = some (t, c, d) := by
  obtain ⟨ht1, ht2⟩ := ht
  obtain ⟨hc1, hc2⟩ := hc
  obtain ⟨hd1, hd2⟩ := hd
  have hdata : (startLine t c d).data =
      ("  <testcase name=\"").data ++ (t.data ++ ('\"' :: ((" classname=\"").data ++
        (c.data ++ ('\"' :: ((" time=\"").data ++ (d.data ++ ('\"' :: ['/', '>']))))))))
      := by
    simp only [startLine, String.data_append, List.append_assoc]
    rfl
  unfold matchTestcase
  rw [hdata, stripLit_append]
  simp only [Option.bind_eq_bind, Option.some_bind]
  rw [grabQuoted_append _ ht1 ht2]
  simp only [Option.some_bind]
  rw [stripLit_append]
  simp only [Option.some_bind]
  rw [grabQuoted_append _ hc1 hc2]
  simp only [Option.some_bind]
  rw [stripLit_append]
  simp only [Option.some_bind]
  rw [grabQuoted_append _ hd1 hd2]
  simp only [Option.some_bind, asString_data]
  rfl

/-- A legacy durationless test-start line does not match the testcase
pattern: the pattern demands a `time` attribute. -/
theorem matchTestcase_noTimeLine {t c : String} (ht : validStr t) (hc : validStr c) :
    matchTestcase (noTimeLine t c) = none := by
  obtain ⟨ht1, ht2⟩ := ht
  obtain ⟨hc1, hc2⟩ := hc
  have hdata : (noTimeLine t c).data =
      ("  <testcase name=\"").data ++ (t.data ++ ('\"' :: ((" classname=\"").data ++
        (c.data ++ ('\"' :: ['/', '>']))))) := by
    simp only [noTimeLine, String.data_append, List.append_assoc]
    rfl
  unfold matchTestcase
  rw [hdata, stripLit_append]
  simp only [Option.bind_eq_bind, Option.some_bind]
  rw [grabQuoted_append _ ht1 ht2]
  simp only [Option.some_bind]
  rw [stripLit_append]
  simp only [Option.some_bind]
  rw [grabQuoted_append _ hc1 hc2]
  simp only [Option.some_bind]
  have : stripLit ((" time=\"").data) ['/', '>'] = none := by
    show stripLit (' ' :: 't' :: 'i' :: 'm' :: 'e' :: '=' :: '\"' :: []) ['/', '>'] = none
    simp [stripLit]
  rw [this]
  rfl

/-- A durationless test-start line is not an error-marker line. -/
theorem matchError_noTimeLine (t c : String) : matchError (noTimeLine t c) = false := by
  have hdata : (noTimeLine t c).data =
      ' ' :: ' ' :: '<' :: (("testcase name=\"").data ++ (t.data ++
        (("\" classname=\"").data ++ (c.data ++ ("\"/>").data)))) := by
    simp only [noTimeLine, String.data_append, List.append_assoc]
    rfl
  unfold matchError
  rw [hdata, stripLit_error_testcase]
  rfl

/-- A durationless test-start line is not a failure-marker line. -/
theorem matchFailure_noTimeLine (t c : String) : matchFailure (noTimeLine t c) = false := by
  have hdata : (noTimeLine t c).data =
      ' ' :: ' ' :: '<' :: (("testcase name=\"").data ++ (t.data ++
        (("\" classname=\"").data ++ (c.data ++ ("\"/>").data)))) := by
    simp only [noTimeLine, String.data_append, List.append_assoc]
    rfl
  unfold matchFailure
  rw [hdata, stripLit_failure_testcase]
  rfl

/-- A marker line (error or failure) never matches the testcase pattern. -/
theorem matchTestcase_of_marker {line : String} {k : ResultKind}
    (h : markerKind line = some k) : matchTestcase line = none := by
  have hpre : ∃ rest, line.data = ' ' :: ' ' :: ' ' :: rest := by
    unfold markerKind at h
    by_cases he : matchError line
    · unfold matchError at he
      obtain ⟨r, hr⟩ := Option.isSome_iff_exists.mp he
      have := stripLit_eq_some hr
      exact ⟨' ' :: '<' :: 'e' :: 'r' :: 'r' :: 'o' :: 'r' :: ' ' :: r, by simpa using this⟩
    · simp only [he, if_false] at h
      by_cases hf : matchFailure line
      · unfold matchFailure at hf
        obtain ⟨r, hr⟩ := Option.isSome_iff_exists.mp hf
        have := stripLit_eq_some hr
        exact ⟨' ' :: '<' :: 'f' :: 'a' :: 'i' :: 'l' :: 'u' :: 'r' :: 'e' :: ' ' :: r,
          by simpa using this⟩
      · simp [hf] at h
  obtain ⟨rest, hrest⟩ := hpre
  unfold matchTestcase
  rw [hrest, stripLit_testcase_spaces]
  rfl

/-- An ignored line leaves the loop state unchanged. -/
theorem step_other {s : PState} {l : String} (h : lineOther l) : step s l = .ok s := by
  obtain ⟨h1, h2, h3⟩ := h
  unfold step
  rw [h1]
  simp [h2, h3]

/-- A marker line seen while the open test's outcome is still `Pass`
transitions the outcome to the marker's kind. -/
theorem step_marker_pass {s : PState} {l : String} {k : ResultKind}
    (h : markerKind l = some k) (hs : s.result_kind = some ResultKind.PASS) :
    step s l = .ok { s with result_kind := some k } := by
  unfold step
  rw [matchTestcase_of_marker h]
  unfold markerKind at h
  by_cases he : matchError l
  · simp only [he, if_true, Option.some.injEq] at h
    simp [he, hs, ← h]
  · simp only [he, if_false] at h
    by_cases hf : matchFailure l
    · simp only [hf, if_true, Option.some.injEq] at h
      simp [he, hf, hs, ← h]
    · simp [hf] at h

/-- A marker line seen while the in-progress outcome is anything but `Pass`
(including no open test at all) fails the `assert result_kind == PASS`. -/
theorem step_marker_stuck {s : PState} {l : String} {k : ResultKind}
    (h : markerKind l = some k) (hs : s.result_kind ≠ some ResultKind.PASS) :
    step s l = .error .assertionError := by
  unfold step
  rw [matchTestcase_of_marker h]
  unfold markerKind at h
  by_cases he : matchError l
  · simp [he, hs]
  · simp only [he, if_false] at h
    by_cases hf : matchFailure l
    · simp [he, hf, hs]
    · simp [hf] at h

/-- Closing with no open test is a no-op. -/
theorem closeCurrent_none {s : PState} (h : s.current_test = none) :
    closeCurrent s = .ok s := by
  unfold closeCurrent
  rw [h]

/-- Closing an open `Pass` state emits its record. -/
theorem closeCurrent_open (acc : List Result) (nm : String) (q : ℚ) :
    closeCurrent (openState acc nm q) =
      .ok ⟨acc ++ [⟨nm, ResultKind.PASS, q⟩], some nm, some ResultKind.PASS, some q⟩ := rfl

/-- A well-formed test-start line closes the previous test and opens a new
one with outcome `Pass` and the parsed duration. -/
theorem step_start_ok {s s1 : PState} {t c d : String} {q : ℚ}
    (ht : validStr t) (hc : validStr c) (hd : validStr d)
    (hq : parseFloat d = some q) (hclose : closeCurrent s = .ok s1) :
    step s (startLine t c d) = .ok (openState s1.results (testName t c) q) := by
  unfold step
  rw [matchTestcase_startLine ht hc hd]
  dsimp only
  rw [hclose]
  dsimp only
  rw [hq]
  rfl

/-- A test-start line whose duration text the float parser rejects raises
`ValueError` (after the previous test was closed). -/
theorem step_start_badfloat {s s1 : PState} {t c d : String}
    (ht : validStr t) (hc : validStr c) (hd : validStr d)
    (hq : parseFloat d = none) (hclose : closeCurrent s = .ok s1) :
    step s (startLine t c d) = .error (.valueError d) := by
  unfold step
  rw [matchTestcase_startLine ht hc hd]
  dsimp only
  rw [hclose]
  dsimp only
  rw [hq]

/-- The line loop over a concatenation runs the two parts in sequence. -/
theorem runLines_append (s : PState) (xs ys : List String) :
    runLines s (xs ++ ys) =
      match runLines s xs with
      | .ok s1 => runLines s1 ys
      | .error e => .error e := by
  induction xs generalizing s with
  | nil => simp [runLines]
  | cons l t ih =>
    simp only [List.cons_append, runLines]
    cases step s l with
    | ok s1 => exact ih s1
    | error e => rfl

/-- Ignored lines leave the loop state unchanged. -/
theorem runLines_other {s : PState} {ls : List String} (h : allOther ls) :
    runLines s ls = .ok s := by
  induction ls with
  | nil => rfl
  | cons l t ih =>
    rw [runLines, step_other (h l (List.mem_cons_self l t))]
    exact ih (fun x hx => h x (List.mem_cons_of_mem l hx))

/-- The initial state satisfies the loop invariant. -/
theorem wf_pstateInit : pstateInit.wf := by
  intro h
  simp [pstateInit] at h

/-- Under the loop invariant, closing never fails. -/
theorem closeCurrent_wf {s : PState} (h : s.wf) : ∃ s1, closeCurrent s = .ok s1 := by
  unfold closeCurrent
  cases hcur : s.current_test with
  | none => exact ⟨s, rfl⟩
  | some t =>
    obtain ⟨hk, hd⟩ := h (by simp [hcur])
    obtain ⟨k, hk⟩ := Option.ne_none_iff_exists.mp hk
    obtain ⟨d, hd⟩ := Option.ne_none_iff_exists.mp hd
    rw [← hk, ← hd]
    exact ⟨_, rfl⟩

/-- The loop body preserves the invariant. -/
theorem step_wf {s s1 : PState} {l : String} (h : s.wf) (hs : step s l = .ok s1) :
    s1.wf := by
  unfold step at hs
  split at hs
  · split at hs
    · simp at hs
    · split at hs
      · simp at hs
      · cases hs
        intro _
        exact ⟨by simp, by simp⟩
  · split at hs
    · split at hs
      · cases hs
        intro hcur
        exact ⟨by simp, (h hcur).2⟩
      · simp at hs
    · split at hs
      · split at hs
        · cases hs
          intro hcur
          exact ⟨by simp, (h hcur).2⟩
        · simp at hs
      · cases hs
        exact h

/-- The line loop preserves the invariant. -/
theorem runLines_wf {ls : List String} {s s1 : PState} (h : s.wf)
    (hr : runLines s ls = .ok s1) : s1.wf := by
  induction ls generalizing s with
  | nil =>
    rw [runLines] at hr
    cases hr
    exact h
  | cons l t ih =>
    rw [runLines] at hr
    cases hs : step s l with
    | error e => rw [hs] at hr; exact absurd hr (by simp)
    | ok s2 =>
      rw [hs] at hr
      exact ih (step_wf h hs) hr

/-- Running markerless entries from an open `Pass` state: each entry closes
its predecessor and the last entry stays open. -/
theorem runLines_openChain {es : List Entry} (hes : ∀ e ∈ es, entryOk e)
    (acc : List Result) (nm : String) (q : ℚ) :
    runLines (openState acc nm q) (es.bind entryLines) = .ok (openChain acc nm q es) := by
  induction es generalizing acc nm q with
  | nil => rfl
  | cons e rest ih =>
    obtain ⟨het, hec, hetime, hesome, hejunk⟩ := hes e (List.mem_cons_self e rest)
    have hq : parseFloat e.time = some (durOf e) := by
      obtain ⟨v, hv⟩ := Option.isSome_iff_exists.mp hesome
      simp [durOf, hv]
    have hrest : ∀ x ∈ rest, entryOk x := fun x hx => hes x (List.mem_cons_of_mem e hx)
    have hlines : (e :: rest).bind entryLines =
        startLine e.t e.c e.time :: (e.junk ++ rest.bind entryLines) := rfl
    rw [hlines]
    simp only [runLines]
    rw [step_start_ok het hec hetime hq (closeCurrent_open acc nm q)]
    dsimp only
    rw [runLines_append, runLines_other hejunk]
    exact ih hrest _ _ _

/-- Running markerless entries from a state with no open test. -/
theorem runLines_chainFrom {es : List Entry} (hes : ∀ e ∈ es, entryOk e)
    {s : PState} (hcur : s.current_test = none) :
    runLines s (es.bind entryLines) = .ok (chainFrom s es) := by
  cases es with
  | nil => rfl
  | cons e rest =>
    obtain ⟨het, hec, hetime, hesome, hejunk⟩ := hes e (List.mem_cons_self e rest)
    have hq : parseFloat e.time = some (durOf e) := by
      obtain ⟨v, hv⟩ := Option.isSome_iff_exists.mp hesome
      simp [durOf, hv]
    have hrest : ∀ x ∈ rest, entryOk x := fun x hx => hes x (List.mem_cons_of_mem e hx)
    have hlines : (e :: rest).bind entryLines =
        startLine e.t e.c e.time :: (e.junk ++ rest.bind entryLines) := rfl
    rw [hlines]
    simp only [runLines]
    rw [step_start_ok het hec hetime hq (closeCurrent_none hcur)]
    dsimp only
    rw [runLines_append, runLines_other hejunk]
    exact runLines_openChain hrest _ _ _

/-- Closing the state left by a run of markerless entries emits one `Pass`
record per entry after the already-accumulated ones. -/
theorem closeCurrent_openChain (es : List Entry) (acc : List Result) (nm : String) (q : ℚ) :
    ∃ s1, closeCurrent (openChain acc nm q es) = .ok s1 ∧
      s1.results = acc ++ ⟨nm, ResultKind.PASS, q⟩ :: entryRecords es := by
  induction es generalizing acc nm q with
  | nil =>
    refine ⟨_, closeCurrent_open acc nm q, ?_⟩
    simp [entryRecords]
  | cons e rest ih =>
    obtain ⟨s1, h1, h2⟩ := ih (acc ++ [⟨nm, ResultKind.PASS, q⟩]) (testName e.t e.c) (durOf e)
    refine ⟨s1, h1, ?_⟩
    simp [entryRecords, h2]

/-- Closing after a run of markerless entries from a closed state. -/
theorem closeCurrent_chainFrom {s : PState} (hcur : s.current_test = none)
    (es : List Entry) :
    ∃ s1, closeCurrent (chainFrom s es) = .ok s1 ∧
      s1.results = s.results ++ entryRecords es := by
  cases es with
  | nil =>
    refine ⟨s, closeCurrent_none hcur, ?_⟩
    simp [entryRecords]
  | cons e rest =>
    obtain ⟨s1, h1, h2⟩ := closeCurrent_openChain rest s.results (testName e.t e.c) (durOf e)
    refine ⟨s1, h1, ?_⟩
    simp [entryRecords, h2]

/-- A document of ignored lines only parses to the empty result list. -/
theorem parse_xml_allOther {lines : List String} (h : allOther lines) :
    parse_xml lines = .ok [] := by
  unfold parse_xml
  rw [runLines_other h]
  rfl

/-- Collection over a concatenation of path lists runs the parts in
sequence, propagating the first error. -/
theorem collect_append (xs ys : List (String × FsNode)) :
    collect_results (xs ++ ys) =
      match collect_results xs with
      | .error e => .error e
      | .ok rs =>
        match collect_results ys with
        | .error e => .error e
        | .ok rs2 => .ok (rs ++ rs2) := by
  induction xs with
  | nil =>
    cases h : collect_results ys <;> simp [collect_results, h]
  | cons x rest ih =>
    obtain ⟨p, n⟩ := x
    simp only [List.cons_append, collect_results]
    cases hh : collectHead p n with
    | error e => rfl
    | ok rs =>
      dsimp only [List.append_eq]
      rw [ih]
      cases h1 : collect_results rest <;> cases h2 : collect_results ys <;>
        simp [List.append_assoc]

/-- Collection over a concatenation succeeds exactly when both parts do. -/
theorem collect_isOk_append (xs ys : List (String × FsNode)) :
    (collect_results (xs ++ ys)).isOk =
      ((collect_results xs).isOk && (collect_results ys).isOk) := by
  rw [collect_append]
  cases h1 : collect_results xs <;> cases h2 : collect_results ys <;>
    simp [Except.isOk, Except.toBool]

/-- A failing `.xml` document makes its singleton collection fail, tagged
with the document's path and the raised error. -/
theorem collect_single_file_error {p : String} {doc : List String} {e : ParseError}
    (hxml : hasXmlExt p = true) (hparse : parse_xml doc = .error e) :
    collect_results [(p, FsNode.file doc)] = .error (p, e) := by
  simp [collect_results, collectHead, hxml, parseDoc, hparse]

/-- Any collection that includes a failing `.xml` document fails as a whole. -/
theorem collect_with_bad_doc_isOk_false {doc : List String}
    (pathsA pathsB : List (String × FsNode)) {p : String}
    (hxml : hasXmlExt p = true) (hbad : (parse_xml doc).isOk = false) :
    (collect_results (pathsA ++ (p, FsNode.file doc) :: pathsB)).isOk = false := by
  rw [collect_isOk_append]
  have hsingle : (collect_results [(p, FsNode.file doc)]).isOk = false := by
    cases hp : parse_xml doc with
    | ok rs => rw [hp] at hbad; simp [Except.isOk, Except.toBool] at hbad
    | error e => simp [collect_single_file_error hxml hp, Except.isOk, Except.toBool]
  have : (p, FsNode.file doc) :: pathsB = [(p, FsNode.file doc)] ++ pathsB := rfl
  rw [this, collect_isOk_append, hsingle]
  simp

/-! ## Claim theorems -/

/-- C8: a document with exactly one test-start line and no outcome-marker
lines parses to exactly one record of kind `Pass`, named
`<class-or-suite-identifier>.<test-identifier>()`, emitted at end of input
even though no later test-start line closes the entry. -/
theorem claim_C8_single_entry_pass (t c d : String) (q : ℚ) (junkA junkB : List String)
    (ht : validStr t) (hc : validStr c) (hd : validStr d)
    (hq : parseFloat d = some q) (hA : allOther junkA) (hB : allOther junkB) :
    parse_xml (junkA ++ startLine t c d :: junkB) =
      .ok [⟨c ++ "." ++ t ++ "()", ResultKind.PASS, q⟩] := by
  unfold parse_xml
  rw [runLines_append, runLines_other hA]
  dsimp only
  simp only [runLines]
  rw [step_start_ok ht hc hd hq (closeCurrent_none rfl)]
  dsimp only
  rw [runLines_other hB]
  dsimp only
  rw [closeCurrent_open]
  simp [pstateInit, testName]

/-- Witness for C8 at a concrete document. -/
theorem claim_C8_witness :
    validStr "testFoo" ∧ validStr "com.example.SuiteTest" ∧ validStr "1.5" ∧
    parseFloat "1.5" = some (Rat.divInt 3 2) ∧
    allOther ["<?xml version=1.0>"] ∧ allOther ["</testsuite>"] ∧
    parse_xml ["<?xml version=1.0>",
        startLine "testFoo" "com.example.SuiteTest" "1.5", "</testsuite>"] =
      .ok [⟨"com.example.SuiteTest" ++ "." ++ "testFoo" ++ "()", ResultKind.PASS, Rat.divInt 3 2⟩] :=
  ⟨by decide, by decide, by decide, by decide,
   by decide, by decide,
   claim_C8_single_entry_pass "testFoo" "com.example.SuiteTest" "1.5" (Rat.divInt 3 2)
     ["<?xml version=1.0>"] ["</testsuite>"]
     (by decide) (by decide) (by decide) (by decide) (by decide) (by decide)⟩

/-- C9 counterexample: a document whose single line matches no test-start
pattern can still fail to parse — a marker line before any test-start line
raises an assertion error, so "returns the empty sequence and does not fail,
regardless of what other lines the document contains" is false as stated. -/
theorem claim_C9_counterexample :
    (∀ l ∈ ["    <error message=\"boom\"/>"], matchTestcase l = none) ∧
    parse_xml ["    <error message=\"boom\"/>"] = .error .assertionError := by
  constructor
  · decide
  · decide

/-- C9 (amended): a document with no test-start line and no outcome-marker
line — i.e. all of whose lines the parser ignores — parses to the empty
sequence without failing. -/
theorem claim_C9_ignored_doc_empty (lines : List String) (h : allOther lines) :
    parse_xml lines = .ok [] :=
  parse_xml_allOther h

/-- Witness for the amended C9 at a concrete document. -/
theorem claim_C9_witness :
    allOther ["<?xml version=1.0>", "<testsuite>", "</testsuite>"] ∧
    parse_xml ["<?xml version=1.0>", "<testsuite>", "</testsuite>"] = .ok [] :=
  ⟨by decide,
   claim_C9_ignored_doc_empty ["<?xml version=1.0>", "<testsuite>", "</testsuite>"] (by decide)⟩

/-- C10: an error- or failure-marker line that appears before any test-start
line fails the parse with an assertion error (the marker check requires the
in-progress outcome to be `Pass`, and none exists yet); the marker is not
ignored like other unrecognized lines. -/
theorem claim_C10_marker_before_start_fails (junk : List String) (m : String)
    (k : ResultKind) (rest : List String) (hj : allOther junk)
    (hm : markerKind m = some k) :
    parse_xml (junk ++ m :: rest) = .error .assertionError := by
  unfold parse_xml
  rw [runLines_append, runLines_other hj]
  dsimp only
  simp only [runLines]
  rw [step_marker_stuck hm (by simp [pstateInit])]

/-- Witness for C10 at a concrete document. -/
theorem claim_C10_witness :
    allOther ["<testsuite>"] ∧ markerKind "    <failure message=\"x\"/>" = some ResultKind.FAIL ∧
    parse_xml ["<testsuite>", "    <failure message=\"x\"/>", "</testsuite>"] =
      .error .assertionError :=
  ⟨by decide, by decide,
   claim_C10_marker_before_start_fails ["<testsuite>"] "    <failure message=\"x\"/>"
     ResultKind.FAIL ["</testsuite>"] (by decide) (by decide)⟩

/-- C2: when a test-start line is followed by exactly one marker line before
the next test-start line or end of input, that entry's record carries the
marker's kind (`Error` for an error marker, `Fail` for a failure marker,
via `markerKind`), while every earlier markerless entry is emitted with kind
`Pass`. -/
theorem claim_C2_marker_sets_kind
    (es : List Entry) (t c d m : String) (q : ℚ) (k : ResultKind)
    (junkA junk1 junk2 : List String)
    (hes : ∀ e ∈ es, entryOk e)
    (ht : validStr t) (hc : validStr c) (hd : validStr d) (hq : parseFloat d = some q)
    (hA : allOther junkA) (h1 : allOther junk1) (h2 : allOther junk2)
    (hm : markerKind m = some k) :
    parse_xml (junkA ++ (es.bind entryLines ++ (startLine t c d :: (junk1 ++ m :: junk2)))) =
      .ok (entryRecords es ++ [⟨testName t c, k, q⟩]) := by
  obtain ⟨s1, hs1, hres⟩ := @closeCurrent_chainFrom pstateInit rfl es
  unfold parse_xml
  rw [runLines_append, runLines_other hA]
  dsimp only
  rw [runLines_append, runLines_chainFrom hes rfl]
  dsimp only
  simp only [runLines]
  rw [step_start_ok ht hc hd hq hs1]
  dsimp only
  rw [runLines_append, runLines_other h1]
  dsimp only
  simp only [runLines]
  rw [step_marker_pass hm rfl]
  dsimp only
  rw [runLines_other h2]
  dsimp only
  simp [closeCurrent, openState, hres, pstateInit]

/-- Witness for C2: one markerless entry followed by an entry with an error
marker — the first is emitted `Pass`, the second `Error`. -/
theorem claim_C2_witness :
    (∀ e ∈ [Entry.mk "testA" "com.X" "1" []], entryOk e) ∧
    validStr "testB" ∧ validStr "com.X" ∧ validStr "2" ∧
    parseFloat "2" = some (2 : ℚ) ∧
    markerKind "    <error message=\"boom\"/>" = some ResultKind.ERROR ∧
    parse_xml (["<testsuite>"] ++
        ([Entry.mk "testA" "com.X" "1" []].bind entryLines ++
          (startLine "testB" "com.X" "2" ::
            ([] ++ "    <error message=\"boom\"/>" :: ["</testsuite>"])))) =
      .ok (entryRecords [Entry.mk "testA" "com.X" "1" []] ++
        [⟨testName "testB" "com.X", ResultKind.ERROR, (2 : ℚ)⟩]) :=
  ⟨by decide, by decide, by decide, by decide, by decide, by decide,
   claim_C2_marker_sets_kind [Entry.mk "testA" "com.X" "1" []] "testB" "com.X" "2"
     "    <error message=\"boom\"/>" 2 ResultKind.ERROR ["<testsuite>"] [] ["</testsuite>"]
     (by decide) (by decide) (by decide) (by decide) (by decide) (by decide) (by decide)
     (by decide) (by decide)⟩

/-- C1: a second outcome-marker line encountered while the current open
entry's outcome is already non-`Pass` makes the parse of that document fail
with the fatal assertion error, and any collection operation including that
document fails as a whole; the parser never silently keeps one of the two
outcomes. -/
theorem claim_C1_second_marker_fatal
    (pre : List String) (m : String) (rest : List String) (s : PState) (k k2 : ResultKind)
    (hrun : runLines pstateInit pre = .ok s) (hk : s.result_kind = some k)
    (hknp : k ≠ ResultKind.PASS) (hm : markerKind m = some k2) :
    parse_xml (pre ++ m :: rest) = .error .assertionError ∧
    ∀ (pathsA pathsB : List (String × FsNode)) (p : String),
      hasXmlExt p = true →
      (collect_results (pathsA ++ (p, FsNode.file (pre ++ m :: rest)) :: pathsB)).isOk
        = false := by
  have hstuck : s.result_kind ≠ some ResultKind.PASS := by
    rw [hk]
    intro hcon
    exact hknp (by injection hcon)
  have hparse : parse_xml (pre ++ m :: rest) = .error .assertionError := by
    unfold parse_xml
    rw [runLines_append, hrun]
    dsimp only
    simp only [runLines]
    rw [step_marker_stuck hm hstuck]
  refine ⟨hparse, fun pathsA pathsB p hxml => ?_⟩
  exact collect_with_bad_doc_isOk_false pathsA pathsB hxml
    (by rw [hparse]; simp [Except.isOk, Except.toBool])

/-- Witness for C1: a document whose open entry is already `Error` when a
failure marker arrives; its parse and its collection both fail. -/
theorem claim_C1_witness :
    runLines pstateInit [startLine "testA" "com.X" "1", "    <error message=\"a\"/>"] =
      .ok ⟨[], some (testName "testA" "com.X"), some ResultKind.ERROR, some 1⟩ ∧
    markerKind "    <failure message=\"b\"/>" = some ResultKind.FAIL ∧
    parse_xml ([startLine "testA" "com.X" "1", "    <error message=\"a\"/>"] ++
        "    <failure message=\"b\"/>" :: []) = .error .assertionError ∧
    (collect_results [("a.xml", FsNode.file
        ([startLine "testA" "com.X" "1", "    <error message=\"a\"/>"] ++
          "    <failure message=\"b\"/>" :: []))]).isOk = false := by
  have h := claim_C1_second_marker_fatal
    [startLine "testA" "com.X" "1", "    <error message=\"a\"/>"]
    "    <failure message=\"b\"/>" []
    ⟨[], some (testName "testA" "com.X"), some ResultKind.ERROR, some 1⟩
    ResultKind.ERROR ResultKind.FAIL (by decide) rfl (by decide) (by decide)
  refine ⟨by decide, by decide, h.1, ?_⟩
  have h2 := h.2 [] [] "a.xml" (by decide)
  simpa using h2

/-- C6: a test-start line whose duration text the float parser rejects makes
the parse of that document fail; a collection over any path set including
that document fails as a whole with no partial result, and the singleton
collection reports the failing document's path and the `ValueError` with the
offending text. -/
theorem claim_C6_bad_duration_fatal (t c d : String) (pre post : List String)
    (ht : validStr t) (hc : validStr c) (hd : validStr d) (hfl : parseFloat d = none) :
    (parse_xml (pre ++ startLine t c d :: post)).isOk = false ∧
    (∀ (junkA : List String), allOther junkA →
      parse_xml (junkA ++ startLine t c d :: post) = .error (.valueError d)) ∧
    (∀ (pathsA pathsB : List (String × FsNode)) (p : String),
      hasXmlExt p = true →
      (collect_results (pathsA ++ (p, FsNode.file (pre ++ startLine t c d :: post)) :: pathsB)).isOk
        = false) ∧
    (∀ (p : String) (junkA : List String), allOther junkA → hasXmlExt p = true →
      collect_results [(p, FsNode.file (junkA ++ startLine t c d :: post))] =
        .error (p, .valueError d)) := by
  have hgen : ∀ pre1 : List String, (parse_xml (pre1 ++ startLine t c d :: post)).isOk = false := by
    intro pre1
    unfold parse_xml
    rw [runLines_append]
    cases hr : runLines pstateInit pre1 with
    | error e => rfl
    | ok s =>
      obtain ⟨s1, hs1⟩ := closeCurrent_wf (runLines_wf wf_pstateInit hr)
      dsimp only
      simp only [runLines]
      rw [step_start_badfloat ht hc hd hfl hs1]
      rfl
  have hjunk : ∀ junkA : List String, allOther junkA →
      parse_xml (junkA ++ startLine t c d :: post) = .error (.valueError d) := by
    intro junkA hA
    unfold parse_xml
    rw [runLines_append, runLines_other hA]
    dsimp only
    simp only [runLines]
    rw [step_start_badfloat ht hc hd hfl (closeCurrent_none rfl)]
  refine ⟨hgen pre, hjunk, fun pathsA pathsB p hxml => ?_, fun p junkA hA hxml => ?_⟩
  · exact collect_with_bad_doc_isOk_false pathsA pathsB hxml (hgen pre)
  · exact collect_single_file_error hxml (hjunk junkA hA)

/-- Witness for C6 at a concrete document with duration text `bananas`. -/
theorem claim_C6_witness :
    validStr "testA" ∧ validStr "com.X" ∧ validStr "bananas" ∧
    parseFloat "bananas" = none ∧
    (parse_xml (["<testsuite>"] ++ startLine "testA" "com.X" "bananas" :: [])).isOk = false ∧
    collect_results [("r.xml", FsNode.file
        (["<testsuite>"] ++ startLine "testA" "com.X" "bananas" :: []))] =
      .error ("r.xml", .valueError "bananas") := by
  have h := claim_C6_bad_duration_fatal "testA" "com.X" "bananas" ["<testsuite>"] []
    (by decide) (by decide) (by decide) (by decide)
  exact ⟨by decide, by decide, by decide, by decide, h.1,
    h.2.2.2 "r.xml" ["<testsuite>"] (by decide) (by decide)⟩

/-- C5 counterexample: a test-start line that carries no duration is not
parsed into a record with an unknown duration — it does not match the
test-start pattern at all, and parsing the document yields no record. -/
theorem claim_C5_counterexample :
    matchTestcase "  <testcase name=\"testA\" classname=\"com.X\"/>" = none ∧
    parse_xml ["  <testcase name=\"testA\" classname=\"com.X\"/>"] = .ok [] := by
  constructor
  · decide
  · decide

/-- C5 (amended): the parser does not support a durationless legacy variant;
a test-start line lacking the duration attribute fails the test-start
pattern, is not a marker line either, and is ignored like any unrecognized
line, so no record is emitted for it (records always carry a duration). -/
theorem claim_C5_durationless_ignored (t c : String) (junkA junkB : List String)
    (ht : validStr t) (hc : validStr c) (hA : allOther junkA) (hB : allOther junkB) :
    matchTestcase (noTimeLine t c) = none ∧
    parse_xml (junkA ++ noTimeLine t c :: junkB) = .ok [] := by
  have hother : lineOther (noTimeLine t c) :=
    ⟨matchTestcase_noTimeLine ht hc, matchError_noTimeLine t c, matchFailure_noTimeLine t c⟩
  refine ⟨hother.1, parse_xml_allOther ?_⟩
  intro l hl
  rcases List.mem_append.mp hl with h | h
  · exact hA l h
  · rcases List.mem_cons.mp h with h | h
    · exact h ▸ hother
    · exact hB l h

/-- Witness for the amended C5 at a concrete document. -/
theorem claim_C5_witness :
    validStr "testA" ∧ validStr "com.X" ∧
    matchTestcase (noTimeLine "testA" "com.X") = none ∧
    parse_xml (["<testsuite>"] ++ noTimeLine "testA" "com.X" :: ["</testsuite>"]) = .ok [] := by
  have h := claim_C5_durationless_ignored "testA" "com.X" ["<testsuite>"] ["</testsuite>"]
    (by decide) (by decide) (by decide) (by decide)
  exact ⟨by decide, by decide, h.1, h.2⟩

/-- Spec-side collection over a concatenation of document lists. -/
theorem specCollect_append (xs ys : List (String × List String)) :
    specCollect (xs ++ ys) =
      match specCollect xs with
      | .error e => .error e
      | .ok rs =>
        match specCollect ys with
        | .error e => .error e
        | .ok rs2 => .ok (rs ++ rs2) := by
  induction xs with
  | nil =>
    cases h : specCollect ys <;> simp [specCollect, h]
  | cons x rest ih =>
    obtain ⟨p, c⟩ := x
    simp only [List.cons_append, specCollect]
    cases hh : parseDoc p c with
    | error e => rfl
    | ok rs =>
      dsimp only [List.append_eq]
      rw [ih]
      cases h1 : specCollect rest <;> cases h2 : specCollect ys <;>
        simp [List.append_assoc]

/-- The `os.walk` loop parses exactly the walked files with the document
extension, in order. -/
theorem parseWalked_eq_specCollect (fs : List (String × List String)) :
    parseWalked fs = specCollect (fs.filter (fun q => hasXmlExt q.1)) := by
  induction fs with
  | nil => rfl
  | cons x rest ih =>
    obtain ⟨p, c⟩ := x
    by_cases hx : hasXmlExt p
    · simp only [parseWalked, hx, if_true, List.filter_cons, specCollect]
      cases hh : parseDoc p c <;> simp [specCollect, ih]
    · simp only [parseWalked, hx, if_false, List.filter_cons]
      simpa [hx] using ih

/-- One input path contributes exactly the parses of the documents the spec
says should be found under it. -/
theorem collectHead_eq_specCollect (p : String) (n : FsNode) :
    collectHead p n = specCollect
      (match n with
       | FsNode.file c => if hasXmlExt p then [(p, c)] else []
       | FsNode.dir _ => (walkFiles p n).filter (fun q => hasXmlExt q.1)) := by
  cases n with
  | file c =>
    by_cases hx : hasXmlExt p
    · simp only [collectHead, hx, if_true]
      cases hh : parseDoc p c <;> simp [specCollect, hh]
    · simp [collectHead, hx, walkFiles, parseWalked, specCollect]
  | dir es =>
    simpa [collectHead] using parseWalked_eq_specCollect (walkFiles p (FsNode.dir es))

/-- C7: the collector parses a regular-file path only when it carries the
`.xml` extension (silently skipping it otherwise), searches directory paths
recursively for descendant files with the extension, and returns the
concatenation of all per-document parses — stated as equality with the
spec-side `specCollect ∘ foundDocs` pipeline, plus the silent-skip rule and
the spec's one-file-plus-directory example. -/
theorem claim_C7_collector (paths : List (String × FsNode)) :
    (collect_results paths = specCollect (foundDocs paths)) ∧
    (∀ (p : String) (c : List String), hasXmlExt p = false →
      collect_results [(p, FsNode.file c)] = .ok []) ∧
    (∀ (pa d pb pc : String) (c1 c2 c3 : List String) (r1 r2 r3 : List Result),
      hasXmlExt pa = true → hasXmlExt (joinPath d pb) = true →
      hasXmlExt (joinPath d pc) = true →
      parse_xml c1 = .ok r1 → parse_xml c2 = .ok r2 → parse_xml c3 = .ok r3 →
      collect_results
          [(pa, FsNode.file c1),
           (d, FsNode.dir [(pb, FsNode.file c2), (pc, FsNode.file c3)])] =
        .ok (r1 ++ (r2 ++ r3))) := by
  refine ⟨?_, ?_, ?_⟩
  · induction paths with
    | nil => rfl
    | cons x rest ih =>
      obtain ⟨p, n⟩ := x
      simp only [collect_results, foundDocs, specCollect_append]
      rw [collectHead_eq_specCollect, ih]
  · intro p c hx
    simp [collect_results, collectHead, hx, walkFiles, parseWalked]
  · intro pa d pb pc c1 c2 c3 r1 r2 r3 hx1 hx2 hx3 h1 h2 h3
    simp [collect_results, collectHead, walkFiles, walkEntryList, entryFiles, parseWalked,
      parseDoc, hx1, hx2, hx3, h1, h2, h3]

/-- Witness for C7 at a concrete file-plus-directory layout. -/
theorem claim_C7_witness :
    (hasXmlExt "skip.txt" = false ∧
      collect_results [("skip.txt", FsNode.file ["garbage"])] = .ok []) ∧
    collect_results
        [("a.xml", FsNode.file [startLine "a" "C" "1"]),
         ("arch", FsNode.dir
           [("b.xml", FsNode.file [startLine "b" "C" "2"]),
            ("c.xml", FsNode.file [startLine "c" "C" "3"])])] =
      .ok ([⟨"C.a()", ResultKind.PASS, 1⟩] ++
        ([⟨"C.b()", ResultKind.PASS, 2⟩] ++ [⟨"C.c()", ResultKind.PASS, 3⟩])) := by
  have h := claim_C7_collector []
  refine ⟨⟨by decide, h.2.1 "skip.txt" ["garbage"] (by decide)⟩, ?_⟩
  exact h.2.2 "a.xml" "arch" "b.xml" "c.xml" _ _ _ _ _ _
    (by decide) (by decide) (by decide) (by decide) (by decide) (by decide)

/-- The `durations` dict holds, per name, the loop's running maximum. -/
theorem dictGet_foldl_updateDuration (rs : List Result) (acc : List (String × ℚ))
    (nm : String) :
    dictGet (rs.foldl updateDuration acc) nm 0 = maxFoldFrom nm (dictGet acc nm 0) rs := by
  induction rs generalizing acc with
  | nil => rfl
  | cons r rest ih =>
    simp only [List.foldl_cons, maxFoldFrom, updateDuration]
    by_cases hn : r.name = nm
    · rw [ih]
      simp [maxFoldFrom, hn, dictGet_set_same]
    · rw [ih]
      have : nm ≠ r.name := fun hcon => hn hcon.symm
      simp [maxFoldFrom, hn, dictGet_set_ne _ _ _ this]

/-- The keys of the `durations` dict are the names seen so far. -/
theorem mem_keys_foldl_updateDuration (rs : List Result) (acc : List (String × ℚ))
    (nm : String) :
    nm ∈ (rs.foldl updateDuration acc).map Prod.fst ↔
      nm ∈ acc.map Prod.fst ∨ nm ∈ rs.map Result.name := by
  induction rs generalizing acc with
  | nil => simp
  | cons r rest ih =>
    simp only [List.foldl_cons, List.map_cons, List.mem_cons]
    rw [ih]
    unfold updateDuration
    rw [mem_keys_dictSet]
    tauto

/-- The `durations` dict keeps its keys distinct. -/
theorem nodup_keys_foldl_updateDuration (rs : List Result) (acc : List (String × ℚ))
    (h : (acc.map Prod.fst).Nodup) :
    ((rs.foldl updateDuration acc).map Prod.fst).Nodup := by
  induction rs generalizing acc with
  | nil => exact h
  | cons r rest ih =>
    exact ih _ (nodup_keys_dictSet _ _ _ h)

/-- The running maximum equals a fold of `max` over the name's durations. -/
theorem maxFoldFrom_eq_foldl_max (nm : String) (rs : List Result) (a : ℚ) :
    maxFoldFrom nm a rs =
      ((rs.filter (fun r => decide (r.name = nm))).map Result.duration).foldl max a := by
  induction rs generalizing a with
  | nil => rfl
  | cons r rest ih =>
    by_cases hn : r.name = nm
    · have hstep : maxFoldFrom nm a (r :: rest) =
          maxFoldFrom nm (if a < r.duration then r.duration else a) rest := by
        simp [maxFoldFrom, hn]
      have hmax : (if a < r.duration then r.duration else a) = max a r.duration := by
        rcases lt_or_le a r.duration with h | h
        · rw [if_pos h, max_eq_right h.le]
        · rw [if_neg (not_lt.mpr h), max_eq_left h]
      rw [hstep, hmax, ih]
      simp [List.filter_cons, hn]
    · have hstep : maxFoldFrom nm a (r :: rest) = maxFoldFrom nm a rest := by
        simp [maxFoldFrom, hn]
      rw [hstep, ih]
      simp [List.filter_cons, hn]

/-- Folding `max` from zero over nonnegative values is their maximum. -/
theorem foldl_max_from_zero (ds : List ℚ) (h0 : ∀ d ∈ ds, 0 ≤ d) :
    ds.foldl max 0 = (match ds with | [] => (0 : ℚ) | d :: t => t.foldl max d) := by
  cases ds with
  | nil => rfl
  | cons d t =>
    simp only [List.foldl_cons]
    rw [max_eq_right (h0 d (List.mem_cons_self d t))]

/-- The aggregated value for a name is its true maximum (zero for a name
that never occurs, matching the spec-side definition). -/
theorem maxFoldFrom_eq_specMax (rs : List Result) (nm : String)
    (h0 : ∀ r ∈ rs, 0 ≤ r.duration) :
    maxFoldFrom nm 0 rs = specMaxDuration rs nm := by
  rw [maxFoldFrom_eq_foldl_max]
  unfold specMaxDuration
  cases hds : (rs.filter (fun r => decide (r.name = nm))).map Result.duration with
  | nil => rfl
  | cons d t =>
    have hd0 : 0 ≤ d := by
      have hdm : d ∈ (rs.filter (fun r => decide (r.name = nm))).map Result.duration := by
        rw [hds]
        exact List.mem_cons_self d t
      obtain ⟨r, hr, hrd⟩ := List.mem_map.mp hdm
      exact hrd ▸ h0 r (List.mem_of_mem_filter hr)
    simp only [List.foldl_cons]
    rw [max_eq_right hd0]

/-- C3: the slow-tests report aggregates, per distinct name, the maximum
duration over all records with that name, ranks the distinct names in
descending order of that maximum, and cuts the table off at the top 8 rows. -/
theorem claim_C3_slow_report (results : List Result)
    (h0 : ∀ r ∈ results, 0 ≤ r.duration) :
    slow_tests_rows results = ((slowRanking results).take 8).map (fun x => (x.2, x.1)) ∧
    (slowRanking results).Pairwise (fun a b => b.2 ≤ a.2) ∧
    ((slowRanking results).map Prod.fst).Nodup ∧
    (∀ nm, nm ∈ (slowRanking results).map Prod.fst ↔ nm ∈ results.map Result.name) ∧
    (∀ x ∈ slowRanking results, x.2 = specMaxDuration results x.1) ∧
    (∀ row ∈ slow_tests_rows results, row.1 = specMaxDuration results row.2) ∧
    (slow_tests_rows results).length = min 8 (slowRanking results).length := by
  have hperm : (slowRanking results).Perm (durationsDict results) :=
    List.mergeSort_perm (durationsDict results) _
  have hkeys : ∀ nm, nm ∈ (durationsDict results).map Prod.fst ↔
      nm ∈ results.map Result.name := by
    intro nm
    unfold durationsDict
    rw [mem_keys_foldl_updateDuration]
    simp [dictGet]
  have hnodup : ((durationsDict results).map Prod.fst).Nodup :=
    nodup_keys_foldl_updateDuration results [] (by simp)
  have hval : ∀ x ∈ durationsDict results, x.2 = specMaxDuration results x.1 := by
    rintro ⟨nm, v⟩ hx
    have hget : dictGet (durationsDict results) nm 0 = v := dictGet_of_mem 0 hnodup hx
    have hmax : dictGet (durationsDict results) nm 0 = maxFoldFrom nm 0 results := by
      unfold durationsDict
      rw [dictGet_foldl_updateDuration]
      rfl
    simpa using (hget ▸ hmax).trans (maxFoldFrom_eq_specMax results nm h0)
  have hvalRank : ∀ x ∈ slowRanking results, x.2 = specMaxDuration results x.1 :=
    fun x hx => hval x (hperm.mem_iff.mp hx)
  refine ⟨rfl, ?_, ?_, ?_, hvalRank, ?_, ?_⟩
  · have hs := @List.sorted_mergeSort (String × ℚ)
      (fun a b => decide (b.2 ≤ a.2))
      (fun a b c hab hbc => by
        simp only [decide_eq_true_eq] at hab hbc ⊢
        exact le_trans hbc hab)
      (fun a b => by
        simp only [Bool.or_eq_true, decide_eq_true_eq]
        exact le_total b.2 a.2)
      (durationsDict results)
    exact hs.imp (fun h => by simpa using h)
  · exact ((hperm.map Prod.fst).nodup_iff).mpr hnodup
  · intro nm
    rw [(hperm.map Prod.fst).mem_iff]
    exact hkeys nm
  · intro row hrow
    unfold slow_tests_rows at hrow
    obtain ⟨x, hx, hxeq⟩ := List.mem_map.mp hrow
    have hx2 : x ∈ slowRanking results := List.mem_of_mem_take hx
    rw [← hxeq]
    exact hvalRank x hx2
  · simp [slow_tests_rows]

/-- Witness for C3 at the spec's example: durations 1 s, 3 s and 2 s for one
name aggregate to a maximum of 3 s. -/
theorem claim_C3_witness :
    (∀ r ∈ [Result.mk "A" ResultKind.PASS 1, Result.mk "A" ResultKind.PASS 3,
        Result.mk "A" ResultKind.PASS 2], 0 ≤ r.duration) ∧
    specMaxDuration [Result.mk "A" ResultKind.PASS 1, Result.mk "A" ResultKind.PASS 3,
        Result.mk "A" ResultKind.PASS 2] "A" = 3 ∧
    (∀ row ∈ slow_tests_rows [Result.mk "A" ResultKind.PASS 1,
        Result.mk "A" ResultKind.PASS 3, Result.mk "A" ResultKind.PASS 2],
      row.1 = specMaxDuration [Result.mk "A" ResultKind.PASS 1,
        Result.mk "A" ResultKind.PASS 3, Result.mk "A" ResultKind.PASS 2] row.2) :=
  ⟨by decide, by decide,
   (claim_C3_slow_report [Result.mk "A" ResultKind.PASS 1, Result.mk "A" ResultKind.PASS 3,
      Result.mk "A" ResultKind.PASS 2] (by decide)).2.2.2.2.2.1⟩

/-- The nested `counts` dict holds, per name and kind, the number of records
seen so far with that name and kind. -/
theorem dictGet_foldl_updateCounts (rs : List Result)
    (acc : List (String × List (ResultKind × ℕ))) (nm : String) (k : ResultKind) :
    dictGet (dictGet (rs.foldl updateCounts acc) nm []) k 0 =
      dictGet (dictGet acc nm []) k 0 + countNameKind rs nm k := by
  induction rs generalizing acc with
  | nil => simp [countNameKind]
  | cons r rest ih =>
    simp only [List.foldl_cons]
    rw [ih]
    have hcount : countNameKind (r :: rest) nm k =
        (if r.name = nm ∧ r.kind = k then 1 else 0) + countNameKind rest nm k := by
      unfold countNameKind
      rw [List.filter_cons]
      by_cases h1 : r.name = nm
      · by_cases h2 : r.kind = k
        · simp [h1, h2, Nat.add_comm]
        · simp [h1, h2]
      · simp [h1]
    rw [hcount]
    by_cases h1 : r.name = nm
    · subst h1
      unfold updateCounts
      rw [dictGet_set_same]
      by_cases h2 : r.kind = k
      · subst h2
        rw [dictGet_set_same]
        simp only [eq_self_iff_true, and_self, if_true]
        omega
      · rw [dictGet_set_ne _ _ _ (fun hc => h2 hc.symm)]
        simp [h2]
    · unfold updateCounts
      rw [dictGet_set_ne _ _ _ (fun hc => h1 hc.symm)]
      simp [h1]

/-- The outer keys of the `counts` dict are the names seen so far. -/
theorem mem_keys_foldl_updateCounts (rs : List Result)
    (acc : List (String × List (ResultKind × ℕ))) (nm : String) :
    nm ∈ (rs.foldl updateCounts acc).map Prod.fst ↔
      nm ∈ acc.map Prod.fst ∨ nm ∈ rs.map Result.name := by
  induction rs generalizing acc with
  | nil => simp
  | cons r rest ih =>
    simp only [List.foldl_cons, List.map_cons, List.mem_cons]
    rw [ih]
    unfold updateCounts
    rw [mem_keys_dictSet]
    tauto

/-- A name's stats dict has one key per kind seen so far for that name. -/
theorem mem_inner_keys_foldl_updateCounts (rs : List Result)
    (acc : List (String × List (ResultKind × ℕ))) (nm : String) (k : ResultKind) :
    k ∈ (dictGet (rs.foldl updateCounts acc) nm []).map Prod.fst ↔
      k ∈ (dictGet acc nm []).map Prod.fst ∨ ∃ r ∈ rs, r.name = nm ∧ r.kind = k := by
  induction rs generalizing acc with
  | nil => simp
  | cons r rest ih =>
    simp only [List.foldl_cons]
    rw [ih]
    have hcons : (∃ x ∈ r :: rest, x.name = nm ∧ x.kind = k) ↔
        ((r.name = nm ∧ r.kind = k) ∨ ∃ x ∈ rest, x.name = nm ∧ x.kind = k) := by
      simp [List.mem_cons]
    rw [hcons]
    by_cases h1 : r.name = nm
    · subst h1
      unfold updateCounts
      rw [dictGet_set_same, mem_keys_dictSet]
      constructor
      · rintro (⟨h | h⟩ | h)
        · tauto
        · exact Or.inr (Or.inl ⟨rfl, h.symm⟩)
        · tauto
      · rintro (h | ⟨⟨_, h⟩ | h⟩)
        · tauto
        · exact Or.inl (Or.inr h.symm)
        · tauto
    · unfold updateCounts
      rw [dictGet_set_ne _ _ _ (fun hc => h1 hc.symm)]
      have : ¬ (r.name = nm ∧ r.kind = k) := fun hc => h1 hc.1
      tauto

/-- Every stats dict in the `counts` dict keeps its keys distinct. -/
theorem nodup_inner_keys_foldl_updateCounts (rs : List Result)
    (acc : List (String × List (ResultKind × ℕ)))
    (h : ∀ nm, ((dictGet acc nm []).map Prod.fst).Nodup) :
    ∀ nm, ((dictGet (rs.foldl updateCounts acc) nm []).map Prod.fst).Nodup := by
  induction rs generalizing acc with
  | nil => exact h
  | cons r rest ih =>
    apply ih
    intro nm
    unfold updateCounts
    by_cases h1 : r.name = nm
    · subst h1
      rw [dictGet_set_same]
      exact nodup_keys_dictSet _ _ _ (h r.name)
    · rw [dictGet_set_ne _ _ _ (fun hc => h1 hc.symm)]
      exact h nm

/-- A list holding two different elements has length at least two. -/
theorem two_le_length_of_mem_ne {α : Type} {a b : α} {l : List α}
    (ha : a ∈ l) (hb : b ∈ l) (hab : a ≠ b) : 2 ≤ l.length := by
  cases l with
  | nil => simp at ha
  | cons x t =>
    cases t with
    | nil =>
      simp only [List.mem_singleton] at ha hb
      exact absurd (ha.trans hb.symm) hab
    | cons y t2 =>
      simp only [List.length_cons]
      omega

/-- A duplicate-free list of length at least two holds two different
elements. -/
theorem exists_ne_of_two_le_length_nodup {α : Type} {l : List α} (hn : l.Nodup)
    (hl : 2 ≤ l.length) : ∃ a ∈ l, ∃ b ∈ l, a ≠ b := by
  cases l with
  | nil => simp at hl
  | cons x t =>
    cases t with
    | nil => simp at hl
    | cons y t2 =>
      refine ⟨x, List.mem_cons_self x (y :: t2), y,
        List.mem_cons_of_mem x (List.mem_cons_self y t2), ?_⟩
      intro hxy
      subst hxy
      simp [List.nodup_cons] at hn

/-- What an emitted flaky row is made of. -/
theorem flakyRow_eq_some {counts : List (String × List (ResultKind × ℕ))}
    {nm : String} {row : ℕ × ℕ × ℕ × String} (h : flakyRow counts nm = some row) :
    row = (dictGet (dictGet counts nm []) ResultKind.PASS 0,
           dictGet (dictGet counts nm []) ResultKind.FAIL 0,
           dictGet (dictGet counts nm []) ResultKind.ERROR 0, nm) ∧
    (dictGet counts nm []).length ≠ 1 := by
  unfold flakyRow at h
  by_cases hlen : (dictGet counts nm []).length = 1
  · simp [hlen] at h
  · simp only [hlen, if_false, Option.some.injEq] at h
    exact ⟨h.symm, hlen⟩

/-- A name is flaky exactly when its stats dict has at least two kinds. -/
theorem isFlaky_iff_two_le (results : List Result) (nm : String) :
    isFlaky results nm ↔ 2 ≤ (dictGet (countsDict results) nm []).length := by
  have hkeys : ∀ k, k ∈ (dictGet (countsDict results) nm []).map Prod.fst ↔
      ∃ r ∈ results, r.name = nm ∧ r.kind = k := by
    intro k
    unfold countsDict
    rw [mem_inner_keys_foldl_updateCounts]
    simp [dictGet]
  have hnodup := nodup_inner_keys_foldl_updateCounts results [] (by simp [dictGet]) nm
  have hlen : (dictGet (countsDict results) nm []).length =
      ((dictGet (countsDict results) nm []).map Prod.fst).length :=
    (List.length_map _ _).symm
  constructor
  · rintro ⟨r1, hr1, r2, hr2, hn1, hn2, hk⟩
    have h1 := (hkeys r1.kind).mpr ⟨r1, hr1, hn1, rfl⟩
    have h2 := (hkeys r2.kind).mpr ⟨r2, hr2, hn2, rfl⟩
    rw [hlen]
    exact two_le_length_of_mem_ne h1 h2 hk
  · intro h2
    rw [hlen] at h2
    obtain ⟨k1, hk1, k2, hk2, hne⟩ := exists_ne_of_two_le_length_nodup hnodup h2
    obtain ⟨r1, hr1, hn1, hk1e⟩ := (hkeys k1).mp hk1
    obtain ⟨r2, hr2, hn2, hk2e⟩ := (hkeys k2).mp hk2
    exact ⟨r1, hr1, r2, hr2, hn1, hn2, by rw [hk1e, hk2e]; exact hne⟩

/-- A name that occurs has a nonempty stats dict. -/
theorem one_le_stats_of_mem (results : List Result) (nm : String)
    (h : nm ∈ results.map Result.name) :
    1 ≤ (dictGet (countsDict results) nm []).length := by
  obtain ⟨r, hr, hrn⟩ := List.mem_map.mp h
  have hmem : r.kind ∈ (dictGet (countsDict results) nm []).map Prod.fst := by
    unfold countsDict
    rw [mem_inner_keys_foldl_updateCounts]
    exact Or.inr ⟨r, hr, hrn, rfl⟩
  have := List.length_pos_of_mem hmem
  rw [List.length_map] at this
  omega

/-- C4: the flaky-tests report emits one row `(pass, fail, error, name)` for
exactly those names whose records carry more than one distinct kind, counts
each kind's occurrences, sorts the rows by name ascending, and excludes every
name with a single observed kind regardless of how often it occurs. -/
theorem claim_C4_flaky_report (results : List Result) :
    (flaky_tests_rows results).Pairwise (fun a b => a.2.2.2 ≤ b.2.2.2) ∧
    (∀ row ∈ flaky_tests_rows results,
      isFlaky results row.2.2.2 ∧
      row.1 = countNameKind results row.2.2.2 ResultKind.PASS ∧
      row.2.1 = countNameKind results row.2.2.2 ResultKind.FAIL ∧
      row.2.2.1 = countNameKind results row.2.2.2 ResultKind.ERROR) ∧
    (∀ nm, isFlaky results nm → ∃ row ∈ flaky_tests_rows results, row.2.2.2 = nm) := by
  have hperm := List.mergeSort_perm ((countsDict results).map Prod.fst)
    (fun a b => decide (a ≤ b))
  have hkeysmem : ∀ nm, nm ∈ (countsDict results).map Prod.fst ↔
      nm ∈ results.map Result.name := by
    intro nm
    unfold countsDict
    rw [mem_keys_foldl_updateCounts]
    simp
  have hvals : ∀ nm k, dictGet (dictGet (countsDict results) nm []) k 0 =
      countNameKind results nm k := by
    intro nm k
    unfold countsDict
    rw [dictGet_foldl_updateCounts]
    simp [dictGet]
  refine ⟨?_, ?_, ?_⟩
  · have hs := @List.sorted_mergeSort String (fun a b => decide (a ≤ b))
      (fun a b c hab hbc => by
        simp only [decide_eq_true_eq] at hab hbc ⊢
        exact le_trans hab hbc)
      (fun a b => by
        simp only [Bool.or_eq_true, decide_eq_true_eq]
        exact le_total a b)
      ((countsDict results).map Prod.fst)
    unfold flaky_tests_rows
    refine List.Pairwise.filterMap (flakyRow (countsDict results)) ?_ hs
    intro a a1 hle b hb b1 hb1
    rw [(flakyRow_eq_some hb).1, (flakyRow_eq_some hb1).1]
    simpa using hle
  · intro row hrow
    unfold flaky_tests_rows at hrow
    obtain ⟨nm, hnm, hsome⟩ := List.mem_filterMap.mp hrow
    obtain ⟨hroweq, hlen1⟩ := flakyRow_eq_some hsome
    have hnmmem : nm ∈ results.map Result.name :=
      (hkeysmem nm).mp (hperm.mem_iff.mp hnm)
    have hge1 := one_le_stats_of_mem results nm hnmmem
    have hge2 : 2 ≤ (dictGet (countsDict results) nm []).length := by omega
    have hfl : isFlaky results nm := (isFlaky_iff_two_le results nm).mpr hge2
    rw [hroweq]
    exact ⟨hfl, hvals nm ResultKind.PASS, hvals nm ResultKind.FAIL, hvals nm ResultKind.ERROR⟩
  · intro nm hfl
    have hge2 := (isFlaky_iff_two_le results nm).mp hfl
    have hnmmem : nm ∈ results.map Result.name := by
      obtain ⟨r1, hr1, r2, hr2, hn1, _, _⟩ := hfl
      exact List.mem_map.mpr ⟨r1, hr1, hn1⟩
    have hkey : nm ∈ ((countsDict results).map Prod.fst).mergeSort
        (fun a b => decide (a ≤ b)) :=
      hperm.mem_iff.mpr ((hkeysmem nm).mpr hnmmem)
    have hlen1 : (dictGet (countsDict results) nm []).length ≠ 1 := by omega
    refine ⟨(dictGet (dictGet (countsDict results) nm []) ResultKind.PASS 0,
             dictGet (dictGet (countsDict results) nm []) ResultKind.FAIL 0,
             dictGet (dictGet (countsDict results) nm []) ResultKind.ERROR 0, nm),
            List.mem_filterMap.mpr ⟨nm, hkey, ?_⟩, rfl⟩
    unfold flakyRow
    simp [hlen1]

/-- Witness for C4 at the spec's example: name `A` with four `Pass` records is
excluded; name `B` with kinds `Pass, Fail, Pass` gets the row `(2, 1, 0, B)`. -/
theorem claim_C4_witness :
    isFlaky [Result.mk "A" ResultKind.PASS 1, Result.mk "A" ResultKind.PASS 1,
        Result.mk "A" ResultKind.PASS 1, Result.mk "A" ResultKind.PASS 1,
        Result.mk "B" ResultKind.PASS 1, Result.mk "B" ResultKind.FAIL 1,
        Result.mk "B" ResultKind.PASS 1] "B" ∧
    ¬ isFlaky [Result.mk "A" ResultKind.PASS 1, Result.mk "A" ResultKind.PASS 1,
        Result.mk "A" ResultKind.PASS 1, Result.mk "A" ResultKind.PASS 1,
        Result.mk "B" ResultKind.PASS 1, Result.mk "B" ResultKind.FAIL 1,
        Result.mk "B" ResultKind.PASS 1] "A" ∧
    (∃ row ∈ flaky_tests_rows [Result.mk "A" ResultKind.PASS 1,
        Result.mk "A" ResultKind.PASS 1, Result.mk "A" ResultKind.PASS 1,
        Result.mk "A" ResultKind.PASS 1, Result.mk "B" ResultKind.PASS 1,
        Result.mk "B" ResultKind.FAIL 1, Result.mk "B" ResultKind.PASS 1],
      row = (2, 1, 0, "B")) ∧
    (∀ row ∈ flaky_tests_rows [Result.mk "A" ResultKind.PASS 1,
        Result.mk "A" ResultKind.PASS 1, Result.mk "A" ResultKind.PASS 1,
        Result.mk "A" ResultKind.PASS 1, Result.mk "B" ResultKind.PASS 1,
        Result.mk "B" ResultKind.FAIL 1, Result.mk "B" ResultKind.PASS 1],
      row.2.2.2 ≠ "A") := by
  have h := claim_C4_flaky_report [Result.mk "A" ResultKind.PASS 1,
    Result.mk "A" ResultKind.PASS 1, Result.mk "A" ResultKind.PASS 1,
    Result.mk "A" ResultKind.PASS 1, Result.mk "B" ResultKind.PASS 1,
    Result.mk "B" ResultKind.FAIL 1, Result.mk "B" ResultKind.PASS 1]
  have hflB : isFlaky [Result.mk "A" ResultKind.PASS 1, Result.mk "A" ResultKind.PASS 1,
      Result.mk "A" ResultKind.PASS 1, Result.mk "A" ResultKind.PASS 1,
      Result.mk "B" ResultKind.PASS 1, Result.mk "B" ResultKind.FAIL 1,
      Result.mk "B" ResultKind.PASS 1] "B" := by decide
  have hnflA : ¬ isFlaky [Result.mk "A" ResultKind.PASS 1, Result.mk "A" ResultKind.PASS 1,
      Result.mk "A" ResultKind.PASS 1, Result.mk "A" ResultKind.PASS 1,
      Result.mk "B" ResultKind.PASS 1, Result.mk "B" ResultKind.FAIL 1,
      Result.mk "B" ResultKind.PASS 1] "A" := by decide
  obtain ⟨row, hrow, hname⟩ := h.2.2 "B" hflB
  obtain ⟨hfl, h1, h2, h3⟩ := h.2.1 row hrow
  refine ⟨hflB, hnflA, ⟨row, hrow, ?_⟩, fun r hr hname2 => ?_⟩
  · obtain ⟨a, b, c, nm⟩ := row
    simp only at hname h1 h2 h3
    subst hname
    rw [show countNameKind [Result.mk "A" ResultKind.PASS 1, Result.mk "A" ResultKind.PASS 1,
        Result.mk "A" ResultKind.PASS 1, Result.mk "A" ResultKind.PASS 1,
        Result.mk "B" ResultKind.PASS 1, Result.mk "B" ResultKind.FAIL 1,
        Result.mk "B" ResultKind.PASS 1] "B" ResultKind.PASS = 2 from by decide] at h1
    rw [show countNameKind [Result.mk "A" ResultKind.PASS 1, Result.mk "A" ResultKind.PASS 1,
        Result.mk "A" ResultKind.PASS 1, Result.mk "A" ResultKind.PASS 1,
        Result.mk "B" ResultKind.PASS 1, Result.mk "B" ResultKind.FAIL 1,
        Result.mk "B" ResultKind.PASS 1] "B" ResultKind.FAIL = 1 from by decide] at h2
    rw [show countNameKind [Result.mk "A" ResultKind.PASS 1, Result.mk "A" ResultKind.PASS 1,
        Result.mk "A" ResultKind.PASS 1, Result.mk "A" ResultKind.PASS 1,
        Result.mk "B" ResultKind.PASS 1, Result.mk "B" ResultKind.FAIL 1,
        Result.mk "B" ResultKind.PASS 1] "B" ResultKind.ERROR = 0 from by decide] at h3
    rw [h1, h2, h3]
  · have hfl2 := (h.2.1 r hr).1
    rw [hname2] at hfl2
    exact hnflA hfl2

end MvnTestalot


